import Mathlib

/-!
Verification development for the sparse Jonker-Volgenant linear assignment
kernel (cellprofiler/cpmath/_lapjv.pyx).

The kernel consists of three phases, `reduction_transfer`,
`augmenting_row_reduction` and `augment`, plus a binary search helper
`bsearch`.  Each is shallowly embedded below as a pure Lean function over
explicit array states, following the source line by line.

Numeric model: the source operates on IEEE doubles, but it only ever uses
addition, subtraction, comparisons and the constant `np.inf`.  We model
the scalars as exact extended rationals with a NaN element (`XR`), whose
operations follow the IEEE rules for infinities and NaN propagation.
Rounding never occurs for these operations in the idealised model.
-/

/-- Extended rationals with NaN: the model of an IEEE double as used by
the kernel.  `fin q` is a finite value, `pinf` and `ninf` are the two
infinities and `nan` is the quiet NaN produced for example by
`pinf + ninf`. -/
inductive XR : Type where
  | nan : XR
  | ninf : XR
  | pinf : XR
  | fin : ℚ → XR
deriving DecidableEq, Repr

namespace XR

/-- IEEE negation. -/
def neg : XR → XR
  | nan => nan
  | ninf => pinf
  | pinf => ninf
  | fin q => fin (-q)

/-- IEEE addition: NaN propagates, opposite infinities give NaN. -/
def add : XR → XR → XR
  | nan, _ => nan
  | _, nan => nan
  | pinf, ninf => nan
  | ninf, pinf => nan
  | pinf, _ => pinf
  | _, pinf => pinf
  | ninf, _ => ninf
  | _, ninf => ninf
  | fin a, fin b => fin (a + b)

/-- IEEE subtraction, defined as addition of the negation (exact for
these operations). -/
def sub (a b : XR) : XR := add a (neg b)

/-- IEEE strict less-than: any comparison involving NaN is false. -/
def blt : XR → XR → Bool
  | nan, _ => false
  | _, nan => false
  | ninf, ninf => false
  | ninf, _ => true
  | _, ninf => false
  | pinf, _ => false
  | fin _, pinf => true
  | fin a, fin b => decide (a < b)

/-- IEEE less-or-equal: any comparison involving NaN is false. -/
def ble : XR → XR → Bool
  | nan, _ => false
  | _, nan => false
  | ninf, _ => true
  | _, pinf => true
  | pinf, _ => false
  | fin _, ninf => false
  | fin a, fin b => decide (a ≤ b)

/-- IEEE equality: NaN is not equal to anything, including itself. -/
def beq : XR → XR → Bool
  | nan, _ => false
  | _, nan => false
  | ninf, ninf => true
  | pinf, pinf => true
  | fin a, fin b => decide (a = b)
  | _, _ => false

/-- Whether the value is a finite rational. -/
def isFin : XR → Bool
  | fin _ => true
  | _ => false

/-- The rational payload of a finite value (0 for the non-finite ones). -/
def toQ : XR → ℚ
  | fin q => q
  | _ => 0

@[simp] theorem sub_fin_fin (a b : ℚ) : sub (fin a) (fin b) = fin (a - b) := by
  simp [sub, add, neg, sub_eq_add_neg]

@[simp] theorem add_fin_fin (a b : ℚ) : add (fin a) (fin b) = fin (a + b) := rfl

@[simp] theorem blt_fin_fin (a b : ℚ) : blt (fin a) (fin b) = decide (a < b) := rfl

@[simp] theorem ble_fin_fin (a b : ℚ) : ble (fin a) (fin b) = decide (a ≤ b) := rfl

@[simp] theorem beq_fin_fin (a b : ℚ) : beq (fin a) (fin b) = decide (a = b) := rfl

@[simp] theorem blt_fin_pinf (a : ℚ) : blt (fin a) pinf = true := rfl

@[simp] theorem blt_pinf (a : XR) : blt pinf a = false := by cases a <;> rfl

@[simp] theorem toQ_fin (a : ℚ) : toQ (fin a) = a := rfl

@[simp] theorem isFin_fin (a : ℚ) : isFin (fin a) = true := rfl

theorem isFin_iff (a : XR) : isFin a = true ↔ ∃ q : ℚ, a = fin q := by
  cases a <;> simp [isFin]

end XR

/-!
Binary search helper (`bsearch` in the source).

The C routine takes a pointer into the flat column array, a count and a
value; it keeps `low` and `high` bounds (with `high` possibly reaching -1)
and returns the position of the value.  When the value is absent the C
function falls off the end without a return statement; this undefined
result is modelled as `none`.  The loop is embedded with explicit fuel;
`count + 1` steps always suffice because the interval shrinks at every
iteration.
-/

/-- C-style binary search loop with fuel.  `Int.tdiv` matches the C
truncating division; all operands are nonnegative on every reachable
call. -/
def bsearchGo (ptr : ℕ → ℕ) (val : ℕ) : ℕ → ℤ → ℤ → Option ℤ
  | 0, _, _ => none
  | fuel + 1, lo, hi =>
    if lo ≤ hi then
      if val = ptr (Int.tdiv (lo + hi) 2).toNat then some (Int.tdiv (lo + hi) 2)
      else if ptr (Int.tdiv (lo + hi) 2).toNat < val then
        bsearchGo ptr val fuel (Int.tdiv (lo + hi) 2 + 1) hi
      else bsearchGo ptr val fuel lo (Int.tdiv (lo + hi) 2 - 1)
    else none

/-- The `bsearch` helper: search `val` among `ptr 0, …, ptr (count-1)`. -/
def bsearch (ptr : ℕ → ℕ) (count : ℕ) (val : ℕ) : Option ℤ :=
  bsearchGo ptr val (count + 1) 0 ((count : ℤ) - 1)

theorem bsearchGo_finds (ptr : ℕ → ℕ) (cnt : ℕ)
    (hs : ∀ a b : ℕ, a < b → b < cnt → ptr a < ptr b)
    (k : ℕ) (hk : k < cnt) :
    ∀ fuel a b : ℕ, b < cnt → a ≤ k → k ≤ b → b + 1 - a ≤ fuel →
      bsearchGo ptr (ptr k) fuel (a : ℤ) (b : ℤ) = some (k : ℤ) := by
  intro fuel
  induction fuel with
  | zero =>
    intro a b _ h1 h2 h3
    exact absurd h3 (by omega)
  | succ fuel ih =>
    intro a b hb h1 h2 h3
    have hab : (a : ℤ) ≤ (b : ℤ) := by exact_mod_cast le_trans h1 h2
    have hmid : Int.tdiv ((a : ℤ) + (b : ℤ)) 2 = (((a + b) / 2 : ℕ) : ℤ) := by
      rw [show ((a : ℤ) + (b : ℤ)) = (((a + b : ℕ) : ℤ)) by push_cast; ring]
      rfl
    have hm1 : a ≤ (a + b) / 2 := by omega
    have hm2 : (a + b) / 2 ≤ b := by omega
    rw [bsearchGo, if_pos hab]
    simp only [hmid, Int.toNat_natCast]
    by_cases he : ptr k = ptr ((a + b) / 2)
    · have hkm : k = (a + b) / 2 := by
        rcases Nat.lt_trichotomy k ((a + b) / 2) with h | h | h
        · have := hs k ((a + b) / 2) h (by omega)
          omega
        · exact h
        · have := hs ((a + b) / 2) k h hk
          omega
      rw [if_pos he, hkm]
    · rw [if_neg he]
      by_cases hlt : ptr ((a + b) / 2) < ptr k
      · rw [if_pos hlt]
        have hkm : (a + b) / 2 < k := by
          rcases Nat.lt_trichotomy ((a + b) / 2) k with h | h | h
          · exact h
          · exact absurd (congrArg ptr h.symm) he
          · have := hs k ((a + b) / 2) h (by omega)
            omega
        rw [show ((((a + b) / 2 : ℕ) : ℤ) + 1) = (((a + b) / 2 + 1 : ℕ) : ℤ) by push_cast; ring]
        exact ih ((a + b) / 2 + 1) b hb (by omega) h2 (by omega)
      · rw [if_neg hlt]
        have hkm : k < (a + b) / 2 := by
          rcases Nat.lt_trichotomy k ((a + b) / 2) with h | h | h
          · exact h
          · exact absurd (congrArg ptr h) he
          · have := hs ((a + b) / 2) k h hk
            omega
        rw [show ((((a + b) / 2 : ℕ) : ℤ) - 1) = (((a + b) / 2 - 1 : ℕ) : ℤ) by omega]
        exact ih a ((a + b) / 2 - 1) (by omega) (by omega) (by omega) (by omega)

/-- C9: for every strictly ascending column slice and every position `k`
in it, `bsearch` run on the value stored at position `k` returns exactly
`k` (round-trip), and `k` is the unique such position. -/
theorem C9_bsearch_roundtrip (ptr : ℕ → ℕ) (cnt : ℕ)
    (hs : ∀ a b : ℕ, a < b → b < cnt → ptr a < ptr b)
    (k : ℕ) (hk : k < cnt) :
    bsearch ptr cnt (ptr k) = some (k : ℤ) ∧
      ∀ k2 : ℕ, k2 < cnt → ptr k2 = ptr k → k2 = k := by
  constructor
  · unfold bsearch
    rw [show ((cnt : ℤ) - 1) = (((cnt - 1 : ℕ)) : ℤ) by omega,
      show (0 : ℤ) = ((0 : ℕ) : ℤ) from rfl]
    exact bsearchGo_finds ptr cnt hs k hk (cnt + 1) 0 (cnt - 1) (by omega) (by omega)
      (by omega) (by omega)
  · intro k2 hk2 he
    rcases Nat.lt_trichotomy k2 k with h | h | h
    · have := hs k2 k h hk
      omega
    · exact h
    · have := hs k k2 h hk2
      omega

/-- Witness for C9 at a concrete strictly ascending slice. -/
theorem C9_bsearch_roundtrip_witness :
    bsearch (fun t => 2 * t + 3) 5 (2 * 2 + 3) = some ((2 : ℕ) : ℤ) ∧
      ∀ k2 : ℕ, k2 < 5 → (fun t => 2 * t + 3) k2 = (fun t => 2 * t + 3) 2 → k2 = 2 :=
  C9_bsearch_roundtrip (fun t => 2 * t + 3) 5 (fun a b h _ => by show 2 * a + 3 < 2 * b + 3; omega) 2 (by omega)

/-!
Reduction transfer (`reduction_transfer` in the source).

The data is the ragged sparse cost graph: `jj` is the flat array of
column indices, `idx`/`count` delimit the slice of each row, `c` is the
flat cost array, `x` the row assignment and `u`, `v` the duals.

Faithfulness note: in the source the cost pointer is offset to the row
slice (`p_c = c_base + p_idx[i]`), but the column pointer is not
(`p_j = <int *>(j.data)` and the loop reads `p_j[j_idx]`).  So for row
`i` the scanned column indices are `jj[0], …, jj[count[i]-1]`, taken
from the start of the flat array, while the costs are
`c[idx[i]], …`.  The embedding mirrors this exactly.  The local
`j_at_min` of the source is dead and omitted.  Out-of-range reads cannot
occur in well-formed instances; `getD` supplies `XR.nan` (for costs and
duals) or 0 (for indices) as the modelled default.
-/

/-- The inner minimum scan of `reduction_transfer` for one row: fold over
`j_idx` in `[0, m)` accumulating `min_u`, starting at `inf`.  `base` is
`idx[i]` (used for the cost reads only, as in the source) and `j1` is
`x[i]`. -/
def rtScan (jj : Array ℕ) (c v : Array XR) (base j1 : ℕ) (m : ℕ) : XR :=
  (List.range m).foldl
    (fun minu jidx =>
      if jj.getD jidx 0 ≠ j1 then
        if XR.blt (XR.sub (c.getD (base + jidx) XR.nan) (v.getD (jj.getD jidx 0) XR.nan))
            minu then
          XR.sub (c.getD (base + jidx) XR.nan) (v.getD (jj.getD jidx 0) XR.nan)
        else minu
      else minu)
    XR.pinf

/-- The body of `reduction_transfer` for one listed row `i`: compute
`min_u`, then `v[j1] -= min_u - u[i]` and `u[i] = min_u`. -/
def rtRow (jj idx count x : Array ℕ) (c : Array XR) (uv : Array XR × Array XR)
    (i : ℕ) : Array XR × Array XR :=
  (uv.1.setD i (rtScan jj c uv.2 (idx.getD i 0) (x.getD i 0) (count.getD i 0)),
   uv.2.setD (x.getD i 0)
     (XR.sub (uv.2.getD (x.getD i 0) XR.nan)
       (XR.sub (rtScan jj c uv.2 (idx.getD i 0) (x.getD i 0) (count.getD i 0))
         (uv.1.getD i XR.nan))))

/-- The `reduction_transfer` kernel: process each row listed in `ii` in
order, mutating `u` and `v`; `x`, `y` and the graph arrays are read
only. -/
def reduction_transfer (ii jj idx count x : Array ℕ) (u v c : Array XR) :
    Array XR × Array XR :=
  ii.foldl (rtRow jj idx count x c) (u, v)

/-- Modelled from the spec (section 4.1) and from the docstring
pseudocode of the source: identical to `reduction_transfer` except that
the minimum for row `i` scans the column indices of the slice of row `i`,
`jj[idx[i] + j_idx]`, aligned with the costs.  Used to compare the
source behaviour against the specified one. -/
def rtScanRowslice (jj : Array ℕ) (c v : Array XR) (base j1 : ℕ) (m : ℕ) : XR :=
  (List.range m).foldl
    (fun minu jidx =>
      if jj.getD (base + jidx) 0 ≠ j1 then
        if XR.blt (XR.sub (c.getD (base + jidx) XR.nan)
            (v.getD (jj.getD (base + jidx) 0) XR.nan)) minu then
          XR.sub (c.getD (base + jidx) XR.nan) (v.getD (jj.getD (base + jidx) 0) XR.nan)
        else minu
      else minu)
    XR.pinf

/-- Modelled from the spec: the row body using the row-slice scan. -/
def rtRowRowslice (jj idx count x : Array ℕ) (c : Array XR) (uv : Array XR × Array XR)
    (i : ℕ) : Array XR × Array XR :=
  (uv.1.setD i (rtScanRowslice jj c uv.2 (idx.getD i 0) (x.getD i 0) (count.getD i 0)),
   uv.2.setD (x.getD i 0)
     (XR.sub (uv.2.getD (x.getD i 0) XR.nan)
       (XR.sub (rtScanRowslice jj c uv.2 (idx.getD i 0) (x.getD i 0) (count.getD i 0))
         (uv.1.getD i XR.nan))))

/-- Modelled from the spec: reduction transfer as specified, reading the
column slice of each row. -/
def reduction_transfer_rowslice (ii jj idx count x : Array ℕ) (u v c : Array XR) :
    Array XR × Array XR :=
  ii.foldl (rtRowRowslice jj idx count x c) (u, v)

/-- C4: the source `reduction_transfer` does not read the column slice of
row i: on the instance below (row 1 has columns 0 and 1 with costs 3
and 4, assigned column `x[1] = 0`, zero duals) it scans the column
indices from the start of the flat array, pairing cost `c(1, col 0 of
row 0)`, and computes `uMin = 3` and `v[0] = -3`, whereas the specified
row-slice scan yields `uMin = 4` and `v[0] = -4`.  The two results
differ, exhibiting the divergence. -/
theorem C4_reduction_transfer_base_read :
    reduction_transfer #[1] #[1, 0, 1] #[0, 1] #[1, 2] #[1, 0]
        #[XR.fin 0, XR.fin 0] #[XR.fin 0, XR.fin 0]
        #[XR.fin 10, XR.fin 3, XR.fin 4]
      = (#[XR.fin 0, XR.fin 3], #[XR.fin (-3), XR.fin 0]) ∧
    reduction_transfer_rowslice #[1] #[1, 0, 1] #[0, 1] #[1, 2] #[1, 0]
        #[XR.fin 0, XR.fin 0] #[XR.fin 0, XR.fin 0]
        #[XR.fin 10, XR.fin 3, XR.fin 4]
      = (#[XR.fin 0, XR.fin 4], #[XR.fin (-4), XR.fin 0]) ∧
    (#[XR.fin 0, XR.fin 3], #[XR.fin (-3), XR.fin 0]) ≠
      ((#[XR.fin 0, XR.fin 4], #[XR.fin (-4), XR.fin 0]) :
        Array XR × Array XR) := by
  refine ⟨?_, ?_, ?_⟩
  · simp [reduction_transfer, rtRow, rtScan, XR.sub, XR.add, XR.neg, XR.blt,
      List.range_succ]
  · simp [reduction_transfer_rowslice, rtRowRowslice, rtScanRowslice, XR.sub, XR.add,
      XR.neg, XR.blt, List.range_succ]
  · decide

/-- C7 counterexample: a single-row instance whose row 0 has exactly one
feasible column (column 0, cost 5), with `x[0] = 0` and zero duals.  The
minimum over feasible `j ≠ j1` ranges over the empty set, and the source
does not act as a no-op: it sets `u[0] = +inf` and `v[0] = -inf`, so the
returned `(u, v)` differs from the input `(u, v)`. -/
theorem C7_counterexample_not_noop :
    reduction_transfer #[0] #[0] #[0] #[1] #[0]
        #[XR.fin 0] #[XR.fin 0] #[XR.fin 5]
      ≠ (#[XR.fin 0], #[XR.fin 0]) := by
  have h : reduction_transfer #[0] #[0] #[0] #[1] #[0]
      #[XR.fin 0] #[XR.fin 0] #[XR.fin 5] = (#[XR.pinf], #[XR.ninf]) := by
    simp [reduction_transfer, rtRow, rtScan, XR.sub, XR.add, XR.neg, XR.blt,
      List.range_succ]
  rw [h]
  decide

/-- C7 (amended): when `reduction_transfer` processes a single listed row
`i` whose scan finds no column different from `j1 = x[i]` (in particular
a row with exactly one feasible column equal to its assigned column,
`count[i] = 1` and `jj[0] = x[i]`), the call completes without crashing,
but it is not a no-op: with finite `u[i] = a` and `v[j1] = b` it sets
`u[i]` to `+inf` and `v[j1]` to `-inf`, leaving the other entries of `u`
and `v` unchanged. -/
theorem C7_amended_single_column (jj idx count x : Array ℕ) (u v c : Array XR)
    (i : ℕ) (a b : ℚ)
    (hcount : count.getD i 0 = 1)
    (hjj : jj.getD 0 0 = x.getD i 0)
    (hu : u.getD i XR.nan = XR.fin a)
    (hv : v.getD (x.getD i 0) XR.nan = XR.fin b) :
    reduction_transfer #[i] jj idx count x u v c =
      (u.setD i XR.pinf, v.setD (x.getD i 0) XR.ninf) := by
  have h1 : reduction_transfer #[i] jj idx count x u v c =
      rtRow jj idx count x c (u, v) i := by
    simp [reduction_transfer, Array.foldl_eq_foldl_toList]
  rw [h1, rtRow]
  rw [hcount]
  have h2 : rtScan jj c v (idx.getD i 0) (x.getD i 0) 1 = XR.pinf := by
    simp only [rtScan, List.range_succ, List.range_zero, List.nil_append,
      List.foldl_cons, List.foldl_nil, hjj]
    simp
  rw [h2, hu, hv]
  simp [XR.sub, XR.add, XR.neg]

/-- Witness for the amended C7 at the concrete single-row instance. -/
theorem C7_amended_single_column_witness :
    reduction_transfer #[0] #[0] #[0] #[1] #[0]
        #[XR.fin 0] #[XR.fin 0] #[XR.fin 5] =
      ((#[XR.fin 0] : Array XR).setD 0 XR.pinf,
        (#[XR.fin 0] : Array XR).setD ((#[0] : Array ℕ).getD 0 0) XR.ninf) :=
  C7_amended_single_column #[0] #[0] #[1] #[0] #[XR.fin 0] #[XR.fin 0] #[XR.fin 5]
    0 0 0 rfl rfl rfl rfl

/-!
Augmenting row reduction (`augmenting_row_reduction` in the source).

The while loop walks a cursor `k` over the queue array `qi` (the `ii`
argument, mutated in place by the re-enqueue `p_i[k] = i1`).  The C
locals `j1` and `j2` persist across loop iterations and start
uninitialised; the embedding keeps them in the state and models the
initial garbage as 0 (their value never matters on the paths the claims
speak about).  The dual array `u` is received but never accessed by the
loop; it is carried through the state unchanged.  The free list is
modelled as a Lean list accumulating appends, matching `p_free[nfree++]`
followed by the final `free.resize(nfree)`.
-/

/-- State of the `augmenting_row_reduction` while loop. -/
structure ArrState where
  qi : Array ℕ
  k : ℕ
  x : Array ℕ
  y : Array ℕ
  u : Array XR
  v : Array XR
  free : List ℕ
  j1 : ℕ
  j2 : ℕ
deriving DecidableEq, Repr

/-- The (column, cost) pairs of a row slice: entry `t` is
`(jj[base + t], c[base + t])`. -/
def rowPairs (jj : Array ℕ) (c : Array XR) (base m : ℕ) : List (ℕ × XR) :=
  (List.range m).map (fun t => (jj.getD (base + t) 0, c.getD (base + t) XR.nan))

/-- The u1/u2 scan of `augmenting_row_reduction`: fold the loop body
`temp = c[i,j] - v[j]; if temp < u1 then shift else if temp < u2 then
replace u2` over the row pairs, threading the accumulator
`(u1, j1, u2, j2)`. -/
def arrFind (v : Array XR) : List (ℕ × XR) → XR × ℕ × XR × ℕ → XR × ℕ × XR × ℕ
  | [], acc => acc
  | p :: rest, (u1, j1, u2, j2) =>
    if XR.blt (XR.sub p.2 (v.getD p.1 XR.nan)) u1 then
      arrFind v rest (XR.sub p.2 (v.getD p.1 XR.nan), p.1, u1, j1)
    else if XR.blt (XR.sub p.2 (v.getD p.1 XR.nan)) u2 then
      arrFind v rest (u1, j1, XR.sub p.2 (v.getD p.1 XR.nan), p.1)
    else arrFind v rest (u1, j1, u2, j2)

/-- One iteration of the `augmenting_row_reduction` while loop: dequeue
`i = qi[k]`, `k += 1`, scan for `(u1, j1, u2, j2)` (the locals `j1`,
`j2` persisting from the previous iteration as the initial values), then
perform the reduction and the reassignment exactly as in the source. -/
def arrStep (n : ℕ) (jj idx count : Array ℕ) (c : Array XR) (st : ArrState) : ArrState :=
  let i := st.qi.getD st.k 0
  let k := st.k + 1
  let r := arrFind st.v (rowPairs jj c (idx.getD i 0) (count.getD i 0))
    (XR.pinf, st.j1, XR.pinf, st.j2)
  let u1 := r.1
  let j1a := r.2.1
  let u2 := r.2.2.1
  let j2 := r.2.2.2
  let i1a := st.y.getD j1a 0
  let lt12 := XR.blt u1 u2
  let v2 := if lt12 then
      st.v.setD j1a (XR.add (XR.sub (st.v.getD j1a XR.nan) u2) u1)
    else st.v
  let j1b := if lt12 then j1a else if i1a ≠ n then j2 else j1a
  let i1b := if lt12 then i1a else if i1a ≠ n then st.y.getD j2 0 else i1a
  let qi2 := if i1b ≠ n ∧ lt12 then st.qi.setD (k - 1) i1b else st.qi
  let k2 := if i1b ≠ n ∧ lt12 then k - 1 else k
  let free2 := if i1b ≠ n ∧ ¬lt12 then st.free ++ [i1b] else st.free
  { qi := qi2, k := k2, x := st.x.setD i j1b, y := st.y.setD j1b i,
    u := st.u, v := v2, free := free2, j1 := j1b, j2 := j2 }

/-- Run the `augmenting_row_reduction` while loop to completion, with
fuel; `none` models fuel exhaustion (the source loop has no other exit
than `k` reaching the end of the queue). -/
def arrRun (n : ℕ) (jj idx count : Array ℕ) (c : Array XR) :
    ℕ → ArrState → Option ArrState
  | 0, st => if st.qi.size ≤ st.k then some st else none
  | fuel + 1, st =>
    if st.qi.size ≤ st.k then some st
    else arrRun n jj idx count c fuel (arrStep n jj idx count c st)

/-- The `augmenting_row_reduction` kernel: start the cursor at 0 with an
empty free list and run the loop.  The returned state carries the final
`x`, `y`, `v`, the untouched `u`, and the accumulated free list. -/
def augmenting_row_reduction (n : ℕ) (ii jj idx count x y : Array ℕ)
    (u v c : Array XR) (fuel : ℕ) : Option ArrState :=
  arrRun n jj idx count c fuel
    { qi := ii, k := 0, x := x, y := y, u := u, v := v, free := [], j1 := 0, j2 := 0 }

theorem arrStep_u (n : ℕ) (jj idx count : Array ℕ) (c : Array XR) (st : ArrState) :
    (arrStep n jj idx count c st).u = st.u := rfl

theorem arrRun_u (n : ℕ) (jj idx count : Array ℕ) (c : Array XR) :
    ∀ fuel st st2, arrRun n jj idx count c fuel st = some st2 → st2.u = st.u := by
  intro fuel
  induction fuel with
  | zero =>
    intro st st2 h
    rw [arrRun] at h
    by_cases hc : st.qi.size ≤ st.k
    · rw [if_pos hc] at h
      cases h
      rfl
    · rw [if_neg hc] at h
      cases h
  | succ fuel ih =>
    intro st st2 h
    rw [arrRun] at h
    by_cases hc : st.qi.size ≤ st.k
    · rw [if_pos hc] at h
      cases h
      rfl
    · rw [if_neg hc] at h
      have := ih (arrStep n jj idx count c st) st2 h
      rw [this, arrStep_u]

/-- C10: `augmenting_row_reduction` never writes the row dual array `u`:
whatever state the loop returns carries `u` exactly as passed in, for
every input (the loop body reads and writes `v`, `x`, `y`, the queue and
the free list only). -/
theorem C10_arr_leaves_u_unchanged (n : ℕ) (ii jj idx count x y : Array ℕ)
    (u v c : Array XR) (fuel : ℕ) (st2 : ArrState)
    (h : augmenting_row_reduction n ii jj idx count x y u v c fuel = some st2) :
    st2.u = u :=
  arrRun_u n jj idx count c fuel
    { qi := ii, k := 0, x := x, y := y, u := u, v := v, free := [], j1 := 0, j2 := 0 }
    st2 h

/-- Witness for C10 at a concrete one-row instance. -/
theorem C10_arr_leaves_u_unchanged_witness :
    ∃ st2 : ArrState,
      augmenting_row_reduction 1 #[0] #[0] #[0] #[1] #[1] #[1]
        #[XR.fin 7] #[XR.fin 0] #[XR.fin 5] 2 = some st2 ∧ st2.u = #[XR.fin 7] := by
  refine ⟨_, rfl, ?_⟩
  exact C10_arr_leaves_u_unchanged 1 #[0] #[0] #[0] #[1] #[1] #[1]
    #[XR.fin 7] #[XR.fin 0] #[XR.fin 5] 2 _ rfl


/-!
Specification-level characterisation of the u1/u2 scan of
`augmenting_row_reduction` (claim C5): the smallest and second-smallest
reduced cost over the row, with the first-encountered column winning
ties.
-/

/-- The reduced cost `c[i,j] - v[j]` of a (column, cost) pair, as a
rational (meaningful when both operands are finite). -/
def tempQ (v : Array XR) (p : ℕ × XR) : ℚ := XR.toQ (XR.sub p.2 (v.getD p.1 XR.nan))

/-- `Min2 ts u1 k1 u2 k2` says: `u1` is the minimum of the list `ts`,
attained first at position `k1` (every strictly earlier entry is
strictly larger), and `u2` is the minimum over the positions other than
`k1`, attained first at position `k2`.  This is the "smallest and
second-smallest value, first-encountered wins ties" selection described
in claim C5. -/
structure Min2 (ts : List ℚ) (u1 : ℚ) (k1 : ℕ) (u2 : ℚ) (k2 : ℕ) : Prop where
  at1 : ts[k1]? = some u1
  min1 : ∀ (l : ℕ) (t : ℚ), ts[l]? = some t → u1 ≤ t
  first1 : ∀ (l : ℕ) (t : ℚ), l < k1 → ts[l]? = some t → u1 < t
  ne21 : k2 ≠ k1
  at2 : ts[k2]? = some u2
  min2 : ∀ (l : ℕ) (t : ℚ), l ≠ k1 → ts[l]? = some t → u2 ≤ t
  first2 : ∀ (l : ℕ) (t : ℚ), l < k2 → l ≠ k1 → ts[l]? = some t → u2 < t

theorem Min2_le (ts : List ℚ) (u1 : ℚ) (k1 : ℕ) (u2 : ℚ) (k2 : ℕ)
    (h : Min2 ts u1 k1 u2 k2) : u1 ≤ u2 :=
  h.min1 k2 u2 h.at2

theorem Min2_k1_lt (ts : List ℚ) (u1 : ℚ) (k1 : ℕ) (u2 : ℚ) (k2 : ℕ)
    (h : Min2 ts u1 k1 u2 k2) : k1 < ts.length := by
  have h1 := h.at1
  by_contra hge
  rw [List.getElem?_eq_none (by omega)] at h1
  cases h1

theorem Min2_k2_lt (ts : List ℚ) (u1 : ℚ) (k1 : ℕ) (u2 : ℚ) (k2 : ℕ)
    (h : Min2 ts u1 k1 u2 k2) : k2 < ts.length := by
  have h1 := h.at2
  by_contra hge
  rw [List.getElem?_eq_none (by omega)] at h1
  cases h1

theorem append_single_cases {α : Type} (ts : List α) (t : α) (l : ℕ) (s : α)
    (h : (ts ++ [t])[l]? = some s) :
    (l < ts.length ∧ ts[l]? = some s) ∨ (l = ts.length ∧ s = t) := by
  rcases Nat.lt_trichotomy l ts.length with hl | hl | hl
  · exact Or.inl ⟨hl, by rwa [List.getElem?_append_left hl] at h⟩
  · subst hl
    rw [List.getElem?_concat_length] at h
    exact Or.inr ⟨rfl, (Option.some.inj h).symm⟩
  · exfalso
    rw [List.getElem?_eq_none
      (by simp only [List.length_append, List.length_singleton]; omega)] at h
    cases h

theorem Min2_append_lt (ts : List ℚ) (u1 u2 t : ℚ) (k1 k2 : ℕ)
    (h : Min2 ts u1 k1 u2 k2) (ht : t < u1) :
    Min2 (ts ++ [t]) t ts.length u1 k1 := by
  have hk1 : k1 < ts.length := Min2_k1_lt ts u1 k1 u2 k2 h
  refine ⟨List.getElem?_concat_length ts t, ?_, ?_, by omega, ?_, ?_, ?_⟩
  · intro l s hs
    rcases append_single_cases ts t l s hs with ⟨_, hin⟩ | ⟨_, rfl⟩
    · exact le_trans (le_of_lt ht) (h.min1 l s hin)
    · exact le_rfl
  · intro l s hl hs
    rcases append_single_cases ts t l s hs with ⟨_, hin⟩ | ⟨heq, _⟩
    · exact lt_of_lt_of_le ht (h.min1 l s hin)
    · omega
  · rw [List.getElem?_append_left hk1]
    exact h.at1
  · intro l s hl hs
    rcases append_single_cases ts t l s hs with ⟨_, hin⟩ | ⟨_, rfl⟩
    · exact h.min1 l s hin
    · omega
  · intro l s hl hne hs
    rcases append_single_cases ts t l s hs with ⟨_, hin⟩ | ⟨heq, _⟩
    · exact h.first1 l s hl hin
    · omega

theorem Min2_append_mid (ts : List ℚ) (u1 u2 t : ℚ) (k1 k2 : ℕ)
    (h : Min2 ts u1 k1 u2 k2) (h1 : u1 ≤ t) (h2 : t < u2) :
    Min2 (ts ++ [t]) u1 k1 t ts.length := by
  have hk1 : k1 < ts.length := Min2_k1_lt ts u1 k1 u2 k2 h
  refine ⟨?_, ?_, ?_, by omega, List.getElem?_concat_length ts t, ?_, ?_⟩
  · rw [List.getElem?_append_left hk1]
    exact h.at1
  · intro l s hs
    rcases append_single_cases ts t l s hs with ⟨_, hin⟩ | ⟨_, rfl⟩
    · exact h.min1 l s hin
    · exact h1
  · intro l s hl hs
    rcases append_single_cases ts t l s hs with ⟨_, hin⟩ | ⟨heq, _⟩
    · exact h.first1 l s hl hin
    · omega
  · intro l s hne hs
    rcases append_single_cases ts t l s hs with ⟨_, hin⟩ | ⟨_, rfl⟩
    · exact le_trans (le_of_lt h2) (h.min2 l s hne hin)
    · exact le_rfl
  · intro l s hl hne hs
    rcases append_single_cases ts t l s hs with ⟨_, hin⟩ | ⟨heq, _⟩
    · exact lt_of_lt_of_le h2 (h.min2 l s hne hin)
    · omega

theorem Min2_append_ge (ts : List ℚ) (u1 u2 t : ℚ) (k1 k2 : ℕ)
    (h : Min2 ts u1 k1 u2 k2) (h2 : u2 ≤ t) :
    Min2 (ts ++ [t]) u1 k1 u2 k2 := by
  have hk1 : k1 < ts.length := Min2_k1_lt ts u1 k1 u2 k2 h
  have hk2 : k2 < ts.length := Min2_k2_lt ts u1 k1 u2 k2 h
  refine ⟨?_, ?_, ?_, h.ne21, ?_, ?_, ?_⟩
  · rw [List.getElem?_append_left hk1]
    exact h.at1
  · intro l s hs
    rcases append_single_cases ts t l s hs with ⟨_, hin⟩ | ⟨_, rfl⟩
    · exact h.min1 l s hin
    · exact le_trans (Min2_le ts u1 k1 u2 k2 h) h2
  · intro l s hl hs
    rcases append_single_cases ts t l s hs with ⟨_, hin⟩ | ⟨heq, _⟩
    · exact h.first1 l s hl hin
    · omega
  · rw [List.getElem?_append_left hk2]
    exact h.at2
  · intro l s hne hs
    rcases append_single_cases ts t l s hs with ⟨_, hin⟩ | ⟨_, rfl⟩
    · exact h.min2 l s hne hin
    · exact h2
  · intro l s hl hne hs
    rcases append_single_cases ts t l s hs with ⟨_, hin⟩ | ⟨heq, _⟩
    · exact h.first2 l s hl hne hin
    · omega

theorem Min2_two_lt (t0 t1 : ℚ) (h : t1 < t0) : Min2 [t0, t1] t1 1 t0 0 := by
  refine ⟨rfl, ?_, ?_, by omega, rfl, ?_, ?_⟩
  · intro l s hs
    rcases l with _ | _ | l
    · simp only [List.getElem?_cons_zero, Option.some.injEq] at hs
      linarith
    · simp only [List.getElem?_cons_succ, List.getElem?_cons_zero, Option.some.injEq] at hs
      linarith
    · simp at hs
  · intro l s hl hs
    rcases l with _ | l
    · simp only [List.getElem?_cons_zero, Option.some.injEq] at hs
      linarith
    · omega
  · intro l s hne hs
    rcases l with _ | _ | l
    · simp only [List.getElem?_cons_zero, Option.some.injEq] at hs
      linarith
    · omega
    · simp at hs
  · intro l s hl hne hs
    omega

theorem Min2_two_ge (t0 t1 : ℚ) (h : t0 ≤ t1) : Min2 [t0, t1] t0 0 t1 1 := by
  refine ⟨rfl, ?_, ?_, by omega, rfl, ?_, ?_⟩
  · intro l s hs
    rcases l with _ | _ | l
    · simp only [List.getElem?_cons_zero, Option.some.injEq] at hs
      linarith
    · simp only [List.getElem?_cons_succ, List.getElem?_cons_zero, Option.some.injEq] at hs
      linarith
    · simp at hs
  · intro l s hl hs
    omega
  · intro l s hne hs
    rcases l with _ | _ | l
    · omega
    · simp only [List.getElem?_cons_succ, List.getElem?_cons_zero, Option.some.injEq] at hs
      linarith
    · simp at hs
  · intro l s hl hne hs
    rcases l with _ | l
    · omega
    · omega

theorem sub_of_isFin (a b : XR) (ha : XR.isFin a = true) (hb : XR.isFin b = true) :
    XR.sub a b = XR.fin (XR.toQ a - XR.toQ b) := by
  cases a <;> cases b <;> simp_all [XR.sub, XR.add, XR.neg, XR.isFin, XR.toQ,
    sub_eq_add_neg]

theorem getD_concat_self {α : Type} (l : List α) (p d : α) :
    (l ++ [p]).getD l.length d = p := by
  simp [List.getD_eq_getElem?_getD, List.getElem?_concat_length]

theorem getD_append_left {α : Type} (l l2 : List α) (n : ℕ) (d : α) (h : n < l.length) :
    (l ++ l2).getD n d = l.getD n d := by
  simp [List.getD_eq_getElem?_getD, List.getElem?_append_left h]

/-- The u1/u2 scan computes exactly the `Min2` selection: starting from a
processed prefix `pre` whose `Min2` data is in the accumulator, folding
the remaining pairs extends it to the `Min2` data of the whole list.
All scanned reduced costs must be finite. -/
theorem arrFind_spec (v : Array XR) :
    ∀ (rest pre : List (ℕ × XR)) (u1 u2 : ℚ) (k1 k2 : ℕ),
      (∀ p ∈ rest, XR.isFin p.2 = true ∧ XR.isFin (v.getD p.1 XR.nan) = true) →
      Min2 (pre.map (tempQ v)) u1 k1 u2 k2 →
      ∃ (u1b u2b : ℚ) (k1b k2b : ℕ),
        Min2 ((pre ++ rest).map (tempQ v)) u1b k1b u2b k2b ∧
        arrFind v rest
            (XR.fin u1, (pre.getD k1 (0, XR.nan)).1, XR.fin u2, (pre.getD k2 (0, XR.nan)).1)
          = (XR.fin u1b, ((pre ++ rest).getD k1b (0, XR.nan)).1, XR.fin u2b,
              ((pre ++ rest).getD k2b (0, XR.nan)).1) := by
  intro rest
  induction rest with
  | nil =>
    intro pre u1 u2 k1 k2 _ hmin
    refine ⟨u1, u2, k1, k2, ?_, ?_⟩
    · simpa using hmin
    · simp [arrFind]
  | cons p rest2 ih =>
    intro pre u1 u2 k1 k2 hfin hmin
    have hp2 := (hfin p (by simp)).1
    have hpv := (hfin p (by simp)).2
    have hsub : XR.sub p.2 (v.getD p.1 XR.nan) = XR.fin (tempQ v p) := by
      rw [tempQ, sub_of_isFin p.2 (v.getD p.1 XR.nan) hp2 hpv, XR.toQ_fin]
    have hk1 : k1 < pre.length := by
      have := Min2_k1_lt _ _ _ _ _ hmin
      simpa using this
    have hk2 : k2 < pre.length := by
      have := Min2_k2_lt _ _ _ _ _ hmin
      simpa using this
    have hfin2 : ∀ q ∈ rest2, XR.isFin q.2 = true ∧ XR.isFin (v.getD q.1 XR.nan) = true :=
      fun q hq => hfin q (by simp [hq])
    have hassoc : (pre ++ [p]) ++ rest2 = pre ++ p :: rest2 := by simp
    simp only [arrFind, hsub, XR.blt_fin_fin, decide_eq_true_eq]
    by_cases h1 : tempQ v p < u1
    · rw [if_pos h1]
      have hmin2 : Min2 ((pre ++ [p]).map (tempQ v)) (tempQ v p) pre.length u1 k1 := by
        have := Min2_append_lt (pre.map (tempQ v)) u1 u2 (tempQ v p) k1 k2 hmin h1
        simpa [List.map_append] using this
      obtain ⟨u1b, u2b, k1b, k2b, hm, heq⟩ :=
        ih (pre ++ [p]) (tempQ v p) u1 pre.length k1 hfin2 hmin2
      rw [hassoc] at hm heq
      rw [getD_concat_self, getD_append_left pre [p] k1 (0, XR.nan) hk1] at heq
      exact ⟨u1b, u2b, k1b, k2b, hm, heq⟩
    · rw [if_neg h1]
      by_cases h2 : tempQ v p < u2
      · rw [if_pos h2]
        have hmin2 : Min2 ((pre ++ [p]).map (tempQ v)) u1 k1 (tempQ v p) pre.length := by
          have := Min2_append_mid (pre.map (tempQ v)) u1 u2 (tempQ v p) k1 k2 hmin
            (le_of_not_lt h1) h2
          simpa [List.map_append] using this
        obtain ⟨u1b, u2b, k1b, k2b, hm, heq⟩ :=
          ih (pre ++ [p]) u1 (tempQ v p) k1 pre.length hfin2 hmin2
        rw [hassoc] at hm heq
        rw [getD_concat_self, getD_append_left pre [p] k1 (0, XR.nan) hk1] at heq
        exact ⟨u1b, u2b, k1b, k2b, hm, heq⟩
      · rw [if_neg h2]
        have hmin2 : Min2 ((pre ++ [p]).map (tempQ v)) u1 k1 u2 k2 := by
          have := Min2_append_ge (pre.map (tempQ v)) u1 u2 (tempQ v p) k1 k2 hmin
            (le_of_not_lt h2)
          simpa [List.map_append] using this
        obtain ⟨u1b, u2b, k1b, k2b, hm, heq⟩ := ih (pre ++ [p]) u1 u2 k1 k2 hfin2 hmin2
        rw [hassoc] at hm heq
        rw [getD_append_left pre [p] k1 (0, XR.nan) hk1,
          getD_append_left pre [p] k2 (0, XR.nan) hk2] at heq
        exact ⟨u1b, u2b, k1b, k2b, hm, heq⟩

/-- The u1/u2 scan started from the `inf` accumulator: on a row with at
least two (finite) entries it returns exactly the `Min2` selection,
whatever garbage `g1`, `g2` the persisting locals hold. -/
theorem arrFind_full (v : Array XR) (pairs : List (ℕ × XR)) (g1 g2 : ℕ)
    (hlen : 2 ≤ pairs.length)
    (hfin : ∀ p ∈ pairs, XR.isFin p.2 = true ∧ XR.isFin (v.getD p.1 XR.nan) = true) :
    ∃ (u1 u2 : ℚ) (k1 k2 : ℕ),
      Min2 (pairs.map (tempQ v)) u1 k1 u2 k2 ∧
      arrFind v pairs (XR.pinf, g1, XR.pinf, g2)
        = (XR.fin u1, (pairs.getD k1 (0, XR.nan)).1, XR.fin u2,
            (pairs.getD k2 (0, XR.nan)).1) := by
  obtain ⟨p0, p1, rest, rfl⟩ : ∃ p0 p1 rest, pairs = p0 :: p1 :: rest := by
    match pairs, hlen with
    | p0 :: p1 :: rest, _ => exact ⟨p0, p1, rest, rfl⟩
  have h0 := hfin p0 (by simp)
  have h1 := hfin p1 (by simp)
  have hs0 : XR.sub p0.2 (v.getD p0.1 XR.nan) = XR.fin (tempQ v p0) := by
    rw [tempQ, sub_of_isFin _ _ h0.1 h0.2, XR.toQ_fin]
  have hs1 : XR.sub p1.2 (v.getD p1.1 XR.nan) = XR.fin (tempQ v p1) := by
    rw [tempQ, sub_of_isFin _ _ h1.1 h1.2, XR.toQ_fin]
  have hfr : ∀ p ∈ rest, XR.isFin p.2 = true ∧ XR.isFin (v.getD p.1 XR.nan) = true :=
    fun q hq => hfin q (by simp [hq])
  simp only [arrFind, hs0, hs1, XR.blt_fin_pinf, XR.blt_fin_fin, decide_eq_true_eq,
    eq_self_iff_true, if_true]
  by_cases hc : tempQ v p1 < tempQ v p0
  · rw [if_pos hc]
    obtain ⟨u1b, u2b, k1b, k2b, hm, heq⟩ :=
      arrFind_spec v rest [p0, p1] (tempQ v p1) (tempQ v p0) 1 0 hfr
        (Min2_two_lt (tempQ v p0) (tempQ v p1) hc)
    exact ⟨u1b, u2b, k1b, k2b, hm, heq⟩
  · rw [if_neg hc]
    obtain ⟨u1b, u2b, k1b, k2b, hm, heq⟩ :=
      arrFind_spec v rest [p0, p1] (tempQ v p0) (tempQ v p1) 0 1 hfr
        (Min2_two_ge (tempQ v p0) (tempQ v p1) (le_of_not_lt hc))
    exact ⟨u1b, u2b, k1b, k2b, hm, heq⟩

/-- C5: for each row `i` dequeued by `augmenting_row_reduction` (with at
least two feasible columns, all scanned values finite), the scan selects
`u1`/`j1` as the smallest and `u2`/`j2` as the second-smallest value of
`cost(i,j) - v[j]`, first-encountered column winning ties (`Min2`); then:
if `u1 < u2` strictly, `v[j1]` decreases by exactly `u2 - u1` and, when
the displaced previous owner `y[j1]` is a real row, it is re-enqueued at
the cursor position (processed next) and the free list is unchanged; if
`u1 = u2` and `j1` is currently assigned, `j2` is the target column
instead and the displaced real owner of `j2` (if any) is appended to the
free list; in every case `x[i]` is set to the chosen column and
`y[chosen] = i`, and the free list accumulates exactly the displaced
rows of the tie case. -/
theorem C5_arr_row_step (n : ℕ) (jj idx count : Array ℕ) (c : Array XR) (st : ArrState)
    (i : ℕ) (hi : i = st.qi.getD st.k 0)
    (hk : st.k < st.qi.size)
    (pairs : List (ℕ × XR)) (hp : pairs = rowPairs jj c (idx.getD i 0) (count.getD i 0))
    (hlen : 2 ≤ pairs.length)
    (hfin : ∀ p ∈ pairs, XR.isFin p.2 = true ∧ XR.isFin (st.v.getD p.1 XR.nan) = true) :
    ∃ (u1 u2 : ℚ) (k1 k2 : ℕ) (j1 j2 : ℕ),
      Min2 (pairs.map (tempQ st.v)) u1 k1 u2 k2 ∧
      j1 = (pairs.getD k1 (0, XR.nan)).1 ∧
      j2 = (pairs.getD k2 (0, XR.nan)).1 ∧
      (u1 < u2 →
        (arrStep n jj idx count c st).v
            = st.v.setD j1 (XR.fin (XR.toQ (st.v.getD j1 XR.nan) - (u2 - u1))) ∧
        (arrStep n jj idx count c st).x = st.x.setD i j1 ∧
        (arrStep n jj idx count c st).y = st.y.setD j1 i ∧
        (st.y.getD j1 0 ≠ n →
          (arrStep n jj idx count c st).k = st.k ∧
          (arrStep n jj idx count c st).qi = st.qi.setD st.k (st.y.getD j1 0) ∧
          (arrStep n jj idx count c st).qi.getD (arrStep n jj idx count c st).k 0
              = st.y.getD j1 0 ∧
          (arrStep n jj idx count c st).free = st.free) ∧
        (st.y.getD j1 0 = n →
          (arrStep n jj idx count c st).k = st.k + 1 ∧
          (arrStep n jj idx count c st).qi = st.qi ∧
          (arrStep n jj idx count c st).free = st.free)) ∧
      (u1 = u2 → st.y.getD j1 0 ≠ n →
        (arrStep n jj idx count c st).v = st.v ∧
        (arrStep n jj idx count c st).x = st.x.setD i j2 ∧
        (arrStep n jj idx count c st).y = st.y.setD j2 i ∧
        (arrStep n jj idx count c st).k = st.k + 1 ∧
        (arrStep n jj idx count c st).qi = st.qi ∧
        (st.y.getD j2 0 ≠ n →
          (arrStep n jj idx count c st).free = st.free ++ [st.y.getD j2 0]) ∧
        (st.y.getD j2 0 = n → (arrStep n jj idx count c st).free = st.free)) ∧
      (u1 = u2 → st.y.getD j1 0 = n →
        (arrStep n jj idx count c st).v = st.v ∧
        (arrStep n jj idx count c st).x = st.x.setD i j1 ∧
        (arrStep n jj idx count c st).y = st.y.setD j1 i ∧
        (arrStep n jj idx count c st).k = st.k + 1 ∧
        (arrStep n jj idx count c st).qi = st.qi ∧
        (arrStep n jj idx count c st).free = st.free) := by
  obtain ⟨u1, u2, k1, k2, hmin, harr⟩ :=
    arrFind_full st.v pairs st.j1 st.j2 hlen hfin
  have hk1p : k1 < pairs.length := by
    have := Min2_k1_lt _ _ _ _ _ hmin
    simpa using this
  have hk2p : k2 < pairs.length := by
    have := Min2_k2_lt _ _ _ _ _ hmin
    simpa using this
  have hmem1 : pairs.getD k1 (0, XR.nan) ∈ pairs := by
    rw [List.getD_eq_getElem?_getD, List.getElem?_eq_getElem hk1p]
    exact List.getElem_mem hk1p
  obtain ⟨b1, hb1⟩ := (XR.isFin_iff _).1 (hfin _ hmem1).2
  refine ⟨u1, u2, k1, k2, (pairs.getD k1 (0, XR.nan)).1, (pairs.getD k2 (0, XR.nan)).1,
    hmin, rfl, rfl, ?_, ?_, ?_⟩
  · intro hlt
    have hbltT : XR.blt (XR.fin u1) (XR.fin u2) = true := by simp [hlt]
    have hval : XR.add (XR.sub (st.v.getD (pairs.getD k1 (0, XR.nan)).1 XR.nan)
        (XR.fin u2)) (XR.fin u1)
        = XR.fin (XR.toQ (st.v.getD (pairs.getD k1 (0, XR.nan)).1 XR.nan) - (u2 - u1)) := by
      rw [hb1]
      simp only [XR.sub_fin_fin, XR.add_fin_fin, XR.toQ_fin]
      ring_nf
    refine ⟨?_, ?_, ?_, ?_, ?_⟩
    · simp only [arrStep, ← hi, ← hp, harr, hbltT]
      rw [hval]
      simp
    · simp only [arrStep, ← hi, ← hp, harr, hbltT]
      simp
    · simp only [arrStep, ← hi, ← hp, harr, hbltT]
      simp
    · intro hy1
      simp only [Array.getD_eq_get?, List.getD_eq_getElem?_getD] at hy1
      refine ⟨?_, ?_, ?_, ?_⟩
      · simp only [arrStep, ← hi, ← hp, harr, hbltT]
        simp [hy1]
      · simp only [arrStep, ← hi, ← hp, harr, hbltT]
        simp [hy1]
      · simp only [arrStep, ← hi, ← hp, harr, hbltT]
        simp [hy1, Array.getD_get?_setD, hk]
      · simp only [arrStep, ← hi, ← hp, harr, hbltT]
        simp [hy1]
    · intro hy1
      simp only [Array.getD_eq_get?, List.getD_eq_getElem?_getD] at hy1
      refine ⟨?_, ?_, ?_⟩
      · simp only [arrStep, ← hi, ← hp, harr, hbltT]
        simp [hy1]
      · simp only [arrStep, ← hi, ← hp, harr, hbltT]
        simp [hy1]
      · simp only [arrStep, ← hi, ← hp, harr, hbltT]
        simp [hy1]
  · intro heq hy1
    simp only [Array.getD_eq_get?, List.getD_eq_getElem?_getD] at hy1
    have hbltF : XR.blt (XR.fin u1) (XR.fin u2) = false := by simp [heq]
    refine ⟨?_, ?_, ?_, ?_, ?_, ?_, ?_⟩
    · simp only [arrStep, ← hi, ← hp, harr, hbltF]
      simp
    · simp only [arrStep, ← hi, ← hp, harr, hbltF]
      simp [hy1]
    · simp only [arrStep, ← hi, ← hp, harr, hbltF]
      simp [hy1]
    · simp only [arrStep, ← hi, ← hp, harr, hbltF]
      by_cases hy2 : st.y[(pairs[k2]?.getD (0, XR.nan)).1]?.getD 0 = n <;> simp [hy1, hy2]
    · simp only [arrStep, ← hi, ← hp, harr, hbltF]
      by_cases hy2 : st.y[(pairs[k2]?.getD (0, XR.nan)).1]?.getD 0 = n <;> simp [hy1, hy2]
    · intro hy2
      simp only [Array.getD_eq_get?, List.getD_eq_getElem?_getD] at hy2
      simp only [arrStep, ← hi, ← hp, harr, hbltF]
      simp [hy1, hy2]
    · intro hy2
      simp only [Array.getD_eq_get?, List.getD_eq_getElem?_getD] at hy2
      simp only [arrStep, ← hi, ← hp, harr, hbltF]
      simp [hy1, hy2]
  · intro heq hy1
    simp only [Array.getD_eq_get?, List.getD_eq_getElem?_getD] at hy1
    have hbltF : XR.blt (XR.fin u1) (XR.fin u2) = false := by simp [heq]
    refine ⟨?_, ?_, ?_, ?_, ?_, ?_⟩ <;>
      · simp only [arrStep, ← hi, ← hp, harr, hbltF]
        simp [hy1]

/-- A concrete queue state for exercising one step of
`augmenting_row_reduction`: one unassigned row 0 with columns 0 and 1,
costs 1 and 2, zero duals, nothing assigned (sentinel 2). -/
def arrDemoState : ArrState :=
  { qi := #[0], k := 0, x := #[2, 2], y := #[2, 2],
    u := #[XR.fin 0, XR.fin 0], v := #[XR.fin 0, XR.fin 0], free := [], j1 := 0, j2 := 0 }

/-- The row pairs of the demo instance. -/
def arrDemoPairs : List (ℕ × XR) := [(0, XR.fin 1), (1, XR.fin 2)]

/-- Witness for C5 at the concrete demo state. -/
theorem C5_arr_row_step_witness :
    ∃ (u1 u2 : ℚ) (k1 k2 : ℕ) (j1 j2 : ℕ),
      Min2 (arrDemoPairs.map (tempQ arrDemoState.v)) u1 k1 u2 k2 ∧
      j1 = (arrDemoPairs.getD k1 (0, XR.nan)).1 ∧
      j2 = (arrDemoPairs.getD k2 (0, XR.nan)).1 ∧
      (u1 < u2 →
        (arrStep 2 #[0, 1] #[0] #[2] #[XR.fin 1, XR.fin 2] arrDemoState).v
            = arrDemoState.v.setD j1
                (XR.fin (XR.toQ (arrDemoState.v.getD j1 XR.nan) - (u2 - u1))) ∧
        (arrStep 2 #[0, 1] #[0] #[2] #[XR.fin 1, XR.fin 2] arrDemoState).x
            = arrDemoState.x.setD 0 j1 ∧
        (arrStep 2 #[0, 1] #[0] #[2] #[XR.fin 1, XR.fin 2] arrDemoState).y
            = arrDemoState.y.setD j1 0 ∧
        (arrDemoState.y.getD j1 0 ≠ 2 →
          (arrStep 2 #[0, 1] #[0] #[2] #[XR.fin 1, XR.fin 2] arrDemoState).k
              = arrDemoState.k ∧
          (arrStep 2 #[0, 1] #[0] #[2] #[XR.fin 1, XR.fin 2] arrDemoState).qi
              = arrDemoState.qi.setD arrDemoState.k (arrDemoState.y.getD j1 0) ∧
          (arrStep 2 #[0, 1] #[0] #[2] #[XR.fin 1, XR.fin 2] arrDemoState).qi.getD
              (arrStep 2 #[0, 1] #[0] #[2] #[XR.fin 1, XR.fin 2] arrDemoState).k 0
              = arrDemoState.y.getD j1 0 ∧
          (arrStep 2 #[0, 1] #[0] #[2] #[XR.fin 1, XR.fin 2] arrDemoState).free
              = arrDemoState.free) ∧
        (arrDemoState.y.getD j1 0 = 2 →
          (arrStep 2 #[0, 1] #[0] #[2] #[XR.fin 1, XR.fin 2] arrDemoState).k
              = arrDemoState.k + 1 ∧
          (arrStep 2 #[0, 1] #[0] #[2] #[XR.fin 1, XR.fin 2] arrDemoState).qi
              = arrDemoState.qi ∧
          (arrStep 2 #[0, 1] #[0] #[2] #[XR.fin 1, XR.fin 2] arrDemoState).free
              = arrDemoState.free)) ∧
      (u1 = u2 → arrDemoState.y.getD j1 0 ≠ 2 →
        (arrStep 2 #[0, 1] #[0] #[2] #[XR.fin 1, XR.fin 2] arrDemoState).v
            = arrDemoState.v ∧
        (arrStep 2 #[0, 1] #[0] #[2] #[XR.fin 1, XR.fin 2] arrDemoState).x
            = arrDemoState.x.setD 0 j2 ∧
        (arrStep 2 #[0, 1] #[0] #[2] #[XR.fin 1, XR.fin 2] arrDemoState).y
            = arrDemoState.y.setD j2 0 ∧
        (arrStep 2 #[0, 1] #[0] #[2] #[XR.fin 1, XR.fin 2] arrDemoState).k
            = arrDemoState.k + 1 ∧
        (arrStep 2 #[0, 1] #[0] #[2] #[XR.fin 1, XR.fin 2] arrDemoState).qi
            = arrDemoState.qi ∧
        (arrDemoState.y.getD j2 0 ≠ 2 →
          (arrStep 2 #[0, 1] #[0] #[2] #[XR.fin 1, XR.fin 2] arrDemoState).free
              = arrDemoState.free ++ [arrDemoState.y.getD j2 0]) ∧
        (arrDemoState.y.getD j2 0 = 2 →
          (arrStep 2 #[0, 1] #[0] #[2] #[XR.fin 1, XR.fin 2] arrDemoState).free
              = arrDemoState.free)) ∧
      (u1 = u2 → arrDemoState.y.getD j1 0 = 2 →
        (arrStep 2 #[0, 1] #[0] #[2] #[XR.fin 1, XR.fin 2] arrDemoState).v
            = arrDemoState.v ∧
        (arrStep 2 #[0, 1] #[0] #[2] #[XR.fin 1, XR.fin 2] arrDemoState).x
            = arrDemoState.x.setD 0 j1 ∧
        (arrStep 2 #[0, 1] #[0] #[2] #[XR.fin 1, XR.fin 2] arrDemoState).y
            = arrDemoState.y.setD j1 0 ∧
        (arrStep 2 #[0, 1] #[0] #[2] #[XR.fin 1, XR.fin 2] arrDemoState).k
            = arrDemoState.k + 1 ∧
        (arrStep 2 #[0, 1] #[0] #[2] #[XR.fin 1, XR.fin 2] arrDemoState).qi
            = arrDemoState.qi ∧
        (arrStep 2 #[0, 1] #[0] #[2] #[XR.fin 1, XR.fin 2] arrDemoState).free
            = arrDemoState.free) :=
  C5_arr_row_step 2 #[0, 1] #[0] #[2] #[XR.fin 1, XR.fin 2] arrDemoState 0 rfl
    (by decide) arrDemoPairs (by decide) (by decide) (by decide)

/-!
Shortest-path augmentation (`augment` in the source, lines 352-453).

Scratch arrays (allocated once per call, persisting across the rows of
one call, exactly as in the source): `d` (np.zeros), `pred` (np.ones),
`col` (np.zeros), `done` (np.uint32 -1, modelled as the integer -1).
The per-row search loop and the path reversal loop have no termination
guard in the source; both take fuel here and return `none` on
exhaustion.  A `bsearch` miss (undefined result in the source) also
returns `none`.
-/

/-- Search state of one row of `augment`: the cursor bounds `low`, `up`,
the snapshot `last`, the tier minimum `umin` and the scratch arrays. -/
structure AugSearch where
  low : ℕ
  up : ℕ
  last : ℕ
  umin : XR
  d : Array XR
  pred : Array ℕ
  col : Array ℕ
  done : Array ℤ
deriving DecidableEq, Repr

/-- Mutable state threaded through `augment`: assignments, column duals
and the scratch arrays. -/
structure AugState where
  x : Array ℕ
  y : Array ℕ
  v : Array XR
  d : Array XR
  pred : Array ℕ
  col : Array ℕ
  done : Array ℤ
deriving DecidableEq, Repr

/-- Per-row initialisation (lines 361-365): for each column `j` of the
free row `i`, set `d[j] = c[i,j] - v[j]`, `col[jjj] = j`,
`pred[j] = i`. -/
def augInit (jj idx count : Array ℕ) (c v : Array XR) (i : ℕ)
    (d : Array XR) (pred col : Array ℕ) : Array XR × Array ℕ × Array ℕ :=
  (List.range (count.getD i 0)).foldl
    (fun (s : Array XR × Array ℕ × Array ℕ) jjj =>
      (s.1.setD (jj.getD (idx.getD i 0 + jjj) 0)
         (XR.sub (c.getD (idx.getD i 0 + jjj) XR.nan)
           (v.getD (jj.getD (idx.getD i 0 + jjj) 0) XR.nan)),
       s.2.1.setD (jj.getD (idx.getD i 0 + jjj) 0) i,
       s.2.2.setD jjj (jj.getD (idx.getD i 0 + jjj) 0)))
    (d, pred, col)

/-- Block A minimum scan (lines 379-389): find the minimum pending `d`
among the columns of the free row, collecting the tied columns into
`col[low..up)`; returns `(umin, up, col)`. -/
def augMinScan (jj idx count : Array ℕ) (i low : ℕ) (done : Array ℤ) (d : Array XR)
    (col : Array ℕ) : XR × ℕ × Array ℕ :=
  (List.range (count.getD i 0)).foldl
    (fun (s : XR × ℕ × Array ℕ) jjj =>
      let j := jj.getD (idx.getD i 0 + jjj) 0
      if done.getD j (-1) = (i : ℤ) then s
      else if XR.ble (d.getD j XR.nan) s.1 then
        if XR.blt (d.getD j XR.nan) s.1 then
          (d.getD j XR.nan, low + 1, s.2.2.setD low j)
        else (s.1, s.2.1 + 1, s.2.2.setD s.2.1 j)
      else s)
    (XR.pinf, low, col)

/-- Block A augment check (lines 390-397): scan `col[low..up)` for an
unassigned column (`y[j] = n`); assigned ones scanned on the way are
marked done.  Returns the updated `done` and the found column. -/
def augMark (y col : Array ℕ) (n i : ℕ) : ℕ → ℕ → Array ℤ → Array ℤ × Option ℕ
  | _, 0, done => (done, none)
  | jjj, m + 1, done =>
    if y.getD (col.getD jjj 0) 0 = n then (done, some (col.getD jjj 0))
    else augMark y col n i (jjj + 1) m (done.setD (col.getD jjj 0) (i : ℤ))

/-- Block B relaxation (lines 415-431): relax the columns of the row
`i1` that owns the scanned column; the state tuple is
`(d, pred, col, done, up)`.  Returns the new state and the unassigned
column hit at the tier minimum, if any. -/
def augRelax (jj idx count : Array ℕ) (c : Array XR) (y : Array ℕ) (v : Array XR)
    (n i i1 : ℕ) (u1 umin : XR) :
    ℕ → ℕ → Array XR × Array ℕ × Array ℕ × Array ℤ × ℕ →
      (Array XR × Array ℕ × Array ℕ × Array ℤ × ℕ) × Option ℕ
  | _, 0, s => (s, none)
  | jjj, m + 1, s =>
    let j := jj.getD (idx.getD i1 0 + jjj) 0
    if s.2.2.2.1.getD j (-1) ≠ (i : ℤ) then
      let h := XR.sub (XR.sub (c.getD (idx.getD i1 0 + jjj) XR.nan)
        (v.getD j XR.nan)) u1
      if XR.blt h (s.1.getD j XR.nan) then
        if XR.beq h umin then
          if y.getD j 0 = n then
            ((s.1, s.2.1.setD j i1, s.2.2.1, s.2.2.2.1, s.2.2.2.2), some j)
          else
            augRelax jj idx count c y v n i i1 u1 umin (jjj + 1) m
              (s.1.setD j h, s.2.1.setD j i1, s.2.2.1.setD s.2.2.2.2 j,
               s.2.2.2.1.setD j (i : ℤ), s.2.2.2.2 + 1)
        else
          augRelax jj idx count c y v n i i1 u1 umin (jjj + 1) m
            (s.1.setD j h, s.2.1.setD j i1, s.2.2.1, s.2.2.2.1, s.2.2.2.2)
      else augRelax jj idx count c y v n i i1 u1 umin (jjj + 1) m s
    else augRelax jj idx count c y v n i i1 u1 umin (jjj + 1) m s

/-- One full iteration of the search loop (lines 369-433): block A when
the frontier is empty (possibly finding an unassigned tier column),
then block B on the next frontier column.  `Sum.inl` is the exit with
the found column, `Sum.inr` continues; `none` is a failed `bsearch`. -/
def augSearchStep (n : ℕ) (jj idx count : Array ℕ) (c : Array XR) (y : Array ℕ)
    (v : Array XR) (i : ℕ) (st : AugSearch) : Option ((ℕ × AugSearch) ⊕ AugSearch) :=
  let stA :=
    if st.up = st.low then
      let m := augMinScan jj idx count i st.low st.done st.d st.col
      let mk := augMark y m.2.2 n i st.low (m.2.1 - st.low) st.done
      ((⟨st.low, m.2.1, st.low, m.1, st.d, st.pred, m.2.2, mk.1⟩ : AugSearch), mk.2)
    else (st, none)
  match stA.2 with
  | some j1 => some (Sum.inl (j1, stA.1))
  | none =>
    let s1 := stA.1
    let j1 := s1.col.getD s1.low 0
    let i1 := y.getD j1 0
    match bsearch (fun t => jj.getD (idx.getD i1 0 + t) 0) (count.getD i1 0) j1 with
    | none => none
    | some jidx =>
      let u1 := XR.sub (XR.sub (c.getD (idx.getD i1 0 + jidx.toNat) XR.nan)
        (v.getD j1 XR.nan)) s1.umin
      let r := augRelax jj idx count c y v n i i1 u1 s1.umin 0 (count.getD i1 0)
        (s1.d, s1.pred, s1.col, s1.done, s1.up)
      let st2 : AugSearch := ⟨s1.low + 1, r.1.2.2.2.2, s1.last, s1.umin, r.1.1,
        r.1.2.1, r.1.2.2.1, r.1.2.2.2.1⟩
      match r.2 with
      | some j1b => some (Sum.inl (j1b, st2))
      | none => some (Sum.inr st2)

/-- The search loop of one free row, with fuel. -/
def augSearch (n : ℕ) (jj idx count : Array ℕ) (c : Array XR) (y : Array ℕ)
    (v : Array XR) (i : ℕ) : ℕ → AugSearch → Option (ℕ × AugSearch)
  | 0, _ => none
  | fuel + 1, st =>
    match augSearchStep n jj idx count c y v i st with
    | none => none
    | some (Sum.inl res) => some res
    | some (Sum.inr st2) => augSearch n jj idx count c y v i fuel st2

/-- Price update (lines 436-439): `v[j] += d[j] - umin` over
`col[0..last)`. -/
def augPrice (col : Array ℕ) (d : Array XR) (umin : XR) (last : ℕ) (v : Array XR) :
    Array XR :=
  (List.range last).foldl
    (fun v2 t =>
      v2.setD (col.getD t 0)
        (XR.add (v2.getD (col.getD t 0) XR.nan)
          (XR.sub (d.getD (col.getD t 0) XR.nan) umin)))
    v

/-- Path reversal (lines 440-445), with fuel: follow `pred` from the
found column, flipping assignments, until the free row `i` is
reached. -/
def augFlip (pred : Array ℕ) (i : ℕ) : ℕ → ℕ → Array ℕ → Array ℕ →
    Option (Array ℕ × Array ℕ)
  | 0, _, _, _ => none
  | fuel + 1, j1, x, y =>
    if pred.getD j1 0 = i then
      some (x.setD (pred.getD j1 0) j1, y.setD j1 (pred.getD j1 0))
    else
      augFlip pred i fuel (x.getD (pred.getD j1 0) 0)
        (x.setD (pred.getD j1 0) j1) (y.setD j1 (pred.getD j1 0))

/-- Process one free row of `augment`: initialise the scratch state
(`low = up = 0`; `last` and `umin` are uninitialised C locals, modelled
as 0 and `inf`, both overwritten by the first block A), run the search,
the price update and the path reversal. -/
def augRow (n : ℕ) (jj idx count : Array ℕ) (c : Array XR) (fuel : ℕ)
    (st : AugState) (i : ℕ) : Option AugState :=
  match augSearch n jj idx count c st.y st.v i fuel
      ⟨0, 0, 0, XR.pinf, (augInit jj idx count c st.v i st.d st.pred st.col).1,
        (augInit jj idx count c st.v i st.d st.pred st.col).2.1,
        (augInit jj idx count c st.v i st.d st.pred st.col).2.2, st.done⟩ with
  | none => none
  | some (j1, se) =>
    match augFlip se.pred i fuel j1 st.x st.y with
    | none => none
    | some xy =>
      some ⟨xy.1, xy.2, augPrice se.col se.d se.umin se.last st.v, se.d, se.pred,
        se.col, se.done⟩

/-- Final recomputation of the row duals (lines 449-453):
`u[i] = c(i, x[i]) - v[x[i]]` for every row `i`, locating `x[i]` within
the column slice of row i by binary search. -/
def augFinalU (n : ℕ) (jj idx count x : Array ℕ) (v c u : Array XR) :
    Option (Array XR) :=
  (List.range n).foldl
    (fun acc i =>
      match acc with
      | none => none
      | some u2 =>
        match bsearch (fun t => jj.getD (idx.getD i 0 + t) 0) (count.getD i 0)
            (x.getD i 0) with
        | none => none
        | some jidx =>
          some (u2.setD i (XR.sub (c.getD (idx.getD i 0 + jidx.toNat) XR.nan)
            (v.getD (x.getD i 0) XR.nan))))
    (some u)

/-- The `augment` kernel: per-call scratch arrays (`d` zeros, `pred`
ones, `col` zeros, `done` all -1), then the per-row loop over the free
rows `ii`, then the final recomputation of `u` from the final `v` and
`x`.  Returns `(x, y, u, v)`. -/
def augment (n : ℕ) (ii jj idx count x y : Array ℕ) (u v c : Array XR) (fuel : ℕ) :
    Option (Array ℕ × Array ℕ × Array XR × Array XR) :=
  match ii.foldl
      (fun acc i =>
        match acc with
        | none => none
        | some st => augRow n jj idx count c fuel st i)
      (some (⟨x, y, v, Array.mkArray n (XR.fin 0), Array.mkArray n 1,
        Array.mkArray n 0, Array.mkArray n (-1)⟩ : AugState)) with
  | none => none
  | some st =>
    match augFinalU n jj idx count st.x st.v c u with
    | none => none
    | some u2 => some (st.x, st.y, u2, st.v)

/-- The full pipeline of the claims, from the standard initial state
(duals zero, assignments all sentinel `n`): reduction transfer over the
list of already-assigned rows (empty at the standard initial state),
augmenting row reduction over all rows, then augmentation over the
returned free list.  Returns `(x, y, u, v)`. -/
def pipeline (n : ℕ) (jj idx count : Array ℕ) (c : Array XR) (fuel : ℕ) :
    Option (Array ℕ × Array ℕ × Array XR × Array XR) :=
  match augmenting_row_reduction n (Array.range n) jj idx count
      (Array.mkArray n n) (Array.mkArray n n)
      (reduction_transfer #[] jj idx count (Array.mkArray n n)
        (Array.mkArray n (XR.fin 0)) (Array.mkArray n (XR.fin 0)) c).1
      (reduction_transfer #[] jj idx count (Array.mkArray n n)
        (Array.mkArray n (XR.fin 0)) (Array.mkArray n (XR.fin 0)) c).2 c fuel with
  | none => none
  | some st =>
    augment n st.free.toArray jj idx count st.x st.y st.u st.v c fuel

unseal Rat.add Rat.sub in
/-- C3: on the feasible 1-by-1 instance with the single entry
cost(0,0) = 5 (a row with exactly one feasible column, trivially
admitting the perfect matching 0 to 0), the full pipeline from the
standard initial state returns the correct matching x = [0], y = [0]
but the duals u = [+inf], v = [-inf].  The slackness sum u[0] + v[0] is
NaN, so neither the inequality u[0] + v[0] <= cost(0,0) for the (only)
feasible pair nor the equality on the assigned edge holds under IEEE
comparison: the kernel violates the claimed exact complementary
slackness at return on a feasible instance. -/
theorem C3_slackness_violated_on_singleton :
    pipeline 1 #[0] #[0] #[1] #[XR.fin 5] 10
        = some (#[0], #[0], #[XR.pinf], #[XR.ninf]) ∧
    XR.ble (XR.add XR.pinf XR.ninf) (XR.fin 5) = false ∧
    XR.beq (XR.add XR.pinf XR.ninf) (XR.fin 5) = false :=
  ⟨by decide, rfl, rfl⟩

/-- All arguments of the three kernel phases, bundled for the
determinism statement. -/
structure LapArgs where
  n : ℕ
  ii : Array ℕ
  jj : Array ℕ
  idx : Array ℕ
  count : Array ℕ
  x : Array ℕ
  y : Array ℕ
  u : Array XR
  v : Array XR
  c : Array XR
  fuel : ℕ

/-- Run the three kernel phases on the bundled arguments, collecting
every output (the reduced duals, the full state returned by the row
reduction including its free list, and the augment results). -/
def runAll (a : LapArgs) :
    (Array XR × Array XR) × Option ArrState ×
      Option (Array ℕ × Array ℕ × Array XR × Array XR) :=
  (reduction_transfer a.ii a.jj a.idx a.count a.x a.u a.v a.c,
   augmenting_row_reduction a.n a.ii a.jj a.idx a.count a.x a.y a.u a.v a.c a.fuel,
   augment a.n a.ii a.jj a.idx a.count a.x a.y a.u a.v a.c a.fuel)

/-- C8: the pipeline is deterministic: running the three phases on two
identical, non-aliased copies of the same input arrays yields identical
x, y, u, v and free lists.  In the embedding the phases are pure
functions of their arguments, so equal inputs give equal outputs. -/
theorem C8_deterministic (a b : LapArgs) (h : a = b) : runAll a = runAll b := by
  rw [h]

/-- Witness for C8 at a concrete instance. -/
theorem C8_deterministic_witness :
    runAll ⟨1, #[0], #[0], #[0], #[1], #[1], #[1], #[XR.fin 0], #[XR.fin 0],
        #[XR.fin 5], 5⟩
      = runAll ⟨1, #[0], #[0], #[0], #[1], #[1], #[1], #[XR.fin 0], #[XR.fin 0],
        #[XR.fin 5], 5⟩ :=
  C8_deterministic _ _ rfl

theorem getD_oob {α : Type} (a : Array α) (m : ℕ) (d : α) (h : a.size ≤ m) :
    a.getD m d = d := by
  simp [Array.getD_eq_get?, Array.getElem?_len_le a h]

theorem arrRun_done (n : ℕ) (jj idx count : Array ℕ) (c : Array XR) (st : ArrState)
    (h : st.qi.size ≤ st.k) : ∀ fuel, arrRun n jj idx count c fuel st = some st := by
  intro fuel
  cases fuel with
  | zero => rw [arrRun, if_pos h]
  | succ f => rw [arrRun, if_pos h]

theorem augSearch_stuck (n : ℕ) (jj idx count : Array ℕ) (c : Array XR) (y : Array ℕ)
    (v : Array XR) (i : ℕ) (up last : ℕ) (d : Array XR) (pred col : Array ℕ)
    (done : Array ℤ)
    (hstep : ∀ m, col.size ≤ m →
      augSearchStep n jj idx count c y v i ⟨m, up, last, XR.pinf, d, pred, col, done⟩
        = some (Sum.inr ⟨m + 1, up, last, XR.pinf, d, pred, col, done⟩)) :
    ∀ fuel m, col.size ≤ m →
      augSearch n jj idx count c y v i fuel ⟨m, up, last, XR.pinf, d, pred, col, done⟩
        = none := by
  intro fuel
  induction fuel with
  | zero => intro m _; rfl
  | succ f ih =>
    intro m hm
    rw [augSearch, hstep m hm]
    exact ih (m + 1) (le_trans hm (Nat.le_succ m))

def jjA : Array ℕ := #[0, 1, 0, 1, 0, 2]
def idxA : Array ℕ := #[0, 2, 4]
def cntA : Array ℕ := #[2, 2, 2]
def cA : Array XR := #[XR.fin 0, XR.fin 0, XR.fin 0, XR.fin 0, XR.fin 1, XR.fin 2]
def dFA : Array XR := #[XR.fin 1, XR.fin 1, XR.fin 0]
def predFA : Array ℕ := #[0, 0, 1]
def colFA : Array ℕ := #[0, 1, 0]
def doneFA : Array ℤ := #[0, 0, -1]

def yA : Array ℕ := #[2, 1, 3]
def vA : Array XR := #[XR.fin (-1), XR.fin (-1), XR.fin 0]

unseal Rat.add Rat.sub in
theorem hstepA : ∀ m, colFA.size ≤ m →
    augSearchStep 3 jjA idxA cntA cA yA vA 0
      ⟨m, 2, 2, XR.pinf, dFA, predFA, colFA, doneFA⟩
      = some (Sum.inr ⟨m + 1, 2, 2, XR.pinf, dFA, predFA, colFA, doneFA⟩) := by
  intro m hm
  have hm3 : (3 : ℕ) ≤ m := hm
  have hb : bsearch (fun t => jjA.getD (idxA.getD 2 0 + t) 0) (cntA.getD 2 0) 0
      = some 0 := by decide
  have hr : augRelax jjA idxA cntA cA yA vA 3 0 2
      (XR.sub (XR.sub (cA.getD (idxA.getD 2 0 + (0 : ℤ).toNat) XR.nan)
        (vA.getD 0 XR.nan)) XR.pinf)
      XR.pinf 0 (cntA.getD 2 0) (dFA, predFA, colFA, doneFA, 2)
      = ((dFA, predFA, colFA, doneFA, 2), none) := by decide
  simp only [augSearchStep]
  rw [if_neg (show ¬((2 : ℕ) = m) by omega)]
  simp only [getD_oob colFA m 0 hm]
  have hy : yA.getD 0 0 = 2 := by decide
  simp only [hy, hb, hr]

unseal Rat.add Rat.sub in
theorem augSearchA_none : ∀ fuel,
    augSearch 3 jjA idxA cntA cA yA vA 0 fuel
      ⟨0, 0, 0, XR.pinf, dFA, predFA, colFA, #[-1, -1, -1]⟩ = none := by
  have hs1 : augSearchStep 3 jjA idxA cntA cA yA vA 0
      ⟨0, 0, 0, XR.pinf, dFA, predFA, colFA, #[-1, -1, -1]⟩
      = some (Sum.inr ⟨1, 2, 0, XR.fin 1, dFA, predFA, colFA, doneFA⟩) := by decide
  have hs2 : augSearchStep 3 jjA idxA cntA cA yA vA 0
      ⟨1, 2, 0, XR.fin 1, dFA, predFA, colFA, doneFA⟩
      = some (Sum.inr ⟨2, 2, 0, XR.fin 1, dFA, predFA, colFA, doneFA⟩) := by decide
  have hs3 : augSearchStep 3 jjA idxA cntA cA yA vA 0
      ⟨2, 2, 0, XR.fin 1, dFA, predFA, colFA, doneFA⟩
      = some (Sum.inr ⟨3, 2, 2, XR.pinf, dFA, predFA, colFA, doneFA⟩) := by decide
  intro fuel
  match fuel with
  | 0 => rfl
  | 1 => decide
  | 2 => decide
  | f + 3 =>
    simp only [augSearch, hs1, hs2, hs3]
    exact augSearch_stuck 3 jjA idxA cntA cA yA vA 0 2 2 dFA predFA colFA doneFA
      hstepA f 3 (by decide)

unseal Rat.add Rat.sub in
theorem arrRunA : ∀ f, arrRun 3 jjA idxA cntA cA (f + 5)
    ⟨Array.range 3, 0, Array.mkArray 3 3, Array.mkArray 3 3,
      Array.mkArray 3 (XR.fin 0), Array.mkArray 3 (XR.fin 0), [], 0, 0⟩
    = some ⟨#[0, 1, 1], 3, #[1, 1, 0], yA, Array.mkArray 3 (XR.fin 0), vA, [0], 1, 1⟩ := by
  intro f
  have e0 : arrStep 3 jjA idxA cntA cA
      ⟨Array.range 3, 0, Array.mkArray 3 3, Array.mkArray 3 3,
        Array.mkArray 3 (XR.fin 0), Array.mkArray 3 (XR.fin 0), [], 0, 0⟩
      = ⟨#[0, 1, 2], 1, #[0, 3, 3], #[0, 3, 3], Array.mkArray 3 (XR.fin 0),
          #[XR.fin 0, XR.fin 0, XR.fin 0], [], 0, 1⟩ := by decide
  have e1 : arrStep 3 jjA idxA cntA cA
      ⟨#[0, 1, 2], 1, #[0, 3, 3], #[0, 3, 3], Array.mkArray 3 (XR.fin 0),
        #[XR.fin 0, XR.fin 0, XR.fin 0], [], 0, 1⟩
      = ⟨#[0, 1, 2], 2, #[0, 1, 3], #[0, 1, 3], Array.mkArray 3 (XR.fin 0),
          #[XR.fin 0, XR.fin 0, XR.fin 0], [], 1, 1⟩ := by decide
  have e2 : arrStep 3 jjA idxA cntA cA
      ⟨#[0, 1, 2], 2, #[0, 1, 3], #[0, 1, 3], Array.mkArray 3 (XR.fin 0),
        #[XR.fin 0, XR.fin 0, XR.fin 0], [], 1, 1⟩
      = ⟨#[0, 1, 0], 2, #[0, 1, 0], yA, Array.mkArray 3 (XR.fin 0),
          #[XR.fin (-1), XR.fin 0, XR.fin 0], [], 0, 2⟩ := by decide
  have e3 : arrStep 3 jjA idxA cntA cA
      ⟨#[0, 1, 0], 2, #[0, 1, 0], yA, Array.mkArray 3 (XR.fin 0),
        #[XR.fin (-1), XR.fin 0, XR.fin 0], [], 0, 2⟩
      = ⟨#[0, 1, 1], 2, #[1, 1, 0], #[2, 0, 3], Array.mkArray 3 (XR.fin 0),
          vA, [], 1, 0⟩ := by decide
  have e4 : arrStep 3 jjA idxA cntA cA
      ⟨#[0, 1, 1], 2, #[1, 1, 0], #[2, 0, 3], Array.mkArray 3 (XR.fin 0),
        vA, [], 1, 0⟩
      = ⟨#[0, 1, 1], 3, #[1, 1, 0], yA, Array.mkArray 3 (XR.fin 0), vA, [0], 1, 1⟩ := by
    decide
  rw [arrRun, if_neg (by decide), e0, arrRun, if_neg (by decide), e1, arrRun,
    if_neg (by decide), e2, arrRun, if_neg (by decide), e3, arrRun,
    if_neg (by decide), e4]
  exact arrRun_done 3 jjA idxA cntA cA _ (by decide) f

theorem foldl_single {α β : Type} (g : β → α → β) (init : β) (a : α) :
    Array.foldl g init #[a] = g init a := rfl

unseal Rat.add Rat.sub in
theorem pipelineA_none : ∀ fuel, pipeline 3 jjA idxA cntA cA fuel = none := by
  intro fuel
  match fuel with
  | 0 => decide
  | 1 => decide
  | 2 => decide
  | 3 => decide
  | 4 => decide
  | f + 5 =>
    have hini : augInit jjA idxA cntA cA vA 0 (Array.mkArray 3 (XR.fin 0))
        (Array.mkArray 3 1) (Array.mkArray 3 0) = (dFA, predFA, colFA) := by decide
    simp only [pipeline, augmenting_row_reduction]
    rw [show reduction_transfer #[] jjA idxA cntA (Array.mkArray 3 3)
        (Array.mkArray 3 (XR.fin 0)) (Array.mkArray 3 (XR.fin 0)) cA
        = (Array.mkArray 3 (XR.fin 0), Array.mkArray 3 (XR.fin 0)) from rfl]
    rw [arrRunA f]
    simp only [augment]
    rw [show ([0] : List ℕ).toArray = #[0] from rfl]
    rw [foldl_single]
    simp only [augRow, hini]
    rw [show (Array.mkArray 3 (-1 : ℤ)) = #[-1, -1, -1] from by decide]
    rw [augSearchA_none (f + 5)]

/-- The cost of the entry (i, j) of the sparse graph, when the column is
present in the slice of row i. -/
def edgeCost (jj idx count : Array ℕ) (c : Array XR) (i j : ℕ) : Option XR :=
  ((List.range (count.getD i 0)).find? (fun t => jj.getD (idx.getD i 0 + t) 0 = j)).map
    (fun t => c.getD (idx.getD i 0 + t) XR.nan)

/-- Modelled from the spec (section 8, Optimality: "the value obtained by
an independent reference solver"): the total cost of the assignment
sending row i to `p[i]`, `none` when some edge is infeasible or its cost
not finite. -/
def matchingCost (jj idx count : Array ℕ) (c : Array XR) (p : List ℕ) : Option ℚ :=
  (List.zip (List.range p.length) p).foldl
    (fun acc ij => match acc, edgeCost jj idx count c ij.1 ij.2 with
      | some a, some (XR.fin b) => some (a + b)
      | _, _ => none)
    (some 0)

/-- All ways to insert an element into a list. -/
def insertions {α : Type} (a : α) : List α → List (List α)
  | [] => [[a]]
  | b :: t => (a :: b :: t) :: (insertions a t).map (fun r => b :: r)

/-- All permutations of a list, by structural recursion. -/
def permsOf {α : Type} : List α → List (List α)
  | [] => [[]]
  | a :: t => (permsOf t).flatMap (insertions a)

/-- Modelled from the spec: the minimum cost over all perfect matchings
of the instance, by exhaustive enumeration of the permutations (the
independent reference LAP solver of the optimality property). -/
def lapMinCost (n : ℕ) (jj idx count : Array ℕ) (c : Array XR) : Option ℚ :=
  ((permsOf (List.range n)).filterMap (matchingCost jj idx count c)).foldl
    (fun acc b => match acc with
      | none => some b
      | some a => some (min a b))
    none

unseal Rat.add Rat.sub in
/-- C1: on the feasible 3-by-3 instance A (rows with column slices
row 0: columns 0,1 costs 0,0; row 1: columns 0,1 costs 0,0; row 2:
columns 0,2 costs 1,2), the full pipeline never returns for any fuel:
after the row-reduction phase leaves row 0 free, the augment search
exhausts the columns of the free row (its block A rescans only those),
the needed relaxation into column 2 is blocked by the stale scratch
distance, and the loop then reads `col[low]` past the written frontier
(out of bounds in the source once `low` reaches n; the embedding models
such reads by the allocation default 0) without ever terminating.  No
assignment results, while the reference exhaustive solver shows a
perfect matching of minimum total cost 2 exists, so the claimed
optimality of the resulting assignment fails on this feasible sparse
instance. -/
theorem C1_optimality_fails_nontermination :
    (∀ fuel, pipeline 3 jjA idxA cntA cA fuel = none) ∧
    lapMinCost 3 jjA idxA cntA cA = some 2 :=
  ⟨pipelineA_none, by decide⟩

unseal Rat.add Rat.sub in
/-- C2: on the same feasible instance A the pipeline never completes for
any fuel, so no x and y forming a perfect matching are ever produced,
although the instance admits the perfect matching sending rows 0,1,2 to
columns 1,0,2 (total cost 2): the claimed perfection and mutual
inverseness after the full pipeline fail on this feasible sparse
instance because there is no "after". -/
theorem C2_perfect_matching_fails_nontermination :
    (∀ fuel, pipeline 3 jjA idxA cntA cA fuel = none) ∧
    matchingCost jjA idxA cntA cA [1, 0, 2] = some 2 :=
  ⟨pipelineA_none, by decide⟩

unseal Rat.add Rat.sub in
/-- C6: on the feasible instance A (the perfect matching sending rows
0,1,2 to columns 0,1,2 with total cost 2 exists, and after the
row-reduction phase the free row 0 can reach the unassigned column 2 by
the alternating path 0 - col0 - row2 - col2), the per-row search loop of
`augment` never reaches its terminal state: for every fuel the embedded
pipeline returns `none`.  The loop fails because block A rescans only
the columns of the free row, the relaxation into the outside column 2 is
rejected against the stale scratch distance, and the frontier then runs
off the end of the `col` array (undefined out-of-bounds reads in the
source; allocation-default reads in the embedding) forever. -/
theorem C6_search_loop_never_terminates :
    (∀ fuel, pipeline 3 jjA idxA cntA cA fuel = none) ∧
    matchingCost jjA idxA cntA cA [0, 1, 2] = some 2 :=
  ⟨pipelineA_none, by decide⟩

unseal Rat.add Rat.sub in
/-- Supporting sanity check on the concrete 3-by-3 fixture of the spec
(section 8: feasible pairs (0,0):2, (0,1):1, (1,0):3, (1,1):2, (1,2):1,
(2,1):4, (2,2):2): here the pipeline terminates with the perfect
matching sending rows 0,1,2 to columns 1,0,2, whose total cost 1+3+2=6
equals the exhaustive reference minimum. -/
theorem pipeline_spec_fixture_optimal :
    pipeline 3 #[0, 1, 0, 1, 2, 1, 2] #[0, 2, 5] #[2, 3, 2]
        #[XR.fin 2, XR.fin 1, XR.fin 3, XR.fin 2, XR.fin 1, XR.fin 4, XR.fin 2] 100
      = some (#[1, 0, 2], #[1, 0, 2], #[XR.fin 2, XR.fin 3, XR.fin 5],
          #[XR.fin 0, XR.fin (-1), XR.fin (-3)]) ∧
    lapMinCost 3 #[0, 1, 0, 1, 2, 1, 2] #[0, 2, 5] #[2, 3, 2]
        #[XR.fin 2, XR.fin 1, XR.fin 3, XR.fin 2, XR.fin 1, XR.fin 4, XR.fin 2]
      = some 6 :=
  ⟨by decide, by decide⟩
